import Mathlib

/-
  Verification development for the qualia storage engine (src/qualia/database.py).

  The Python code is shallowly embedded: the Database's persistent state (blob store,
  journal, checkpoints, search index) is an explicit record threaded through the
  operations, Python dicts become insertion-ordered association lists, fallible code
  returns Except, and the wall clock and the SHA-512 digest are explicit parameters.
-/

set_option linter.unusedVariables false

namespace Qualia

/-- Python scalar values occurring in metadata and journal payloads: strings and None. -/
inductive PyVal where
  | str (s : String)
  | pyNone
deriving DecidableEq

/-- One journal transaction record: source, file hash, op, the op-specific extra payload
(a Python tuple, modelled as a list of scalars; for a set it is (field, oldValue, newValue),
for add and delete it is empty) and a timestamp. -/
structure Transaction where
  source : String
  file : List Char
  op : String
  extra : List PyVal
  time : Nat
deriving DecidableEq

/-- The error conditions surfaced by the engine. valueError and attributeError model the
corresponding raw Python exceptions; osError models OSError subclasses such as the
FileNotFoundError raised by os.unlink on a missing path. -/
inductive QErr where
  | valueError
  | fieldDoesNotExist (field : PyVal)
  | fieldReadOnly (field : String)
  | fileExists (hash : List Char)
  | fileDoesNotExist (shortHash : List Char)
  | ambiguousHash (shortHash : List Char)
  | checkpointDoesNotExist (cid : Nat)
  | undoFailed (t : Transaction)
  | attributeError (attr : String)
  | osError
deriving DecidableEq

/-- One entry of File.modifications: (source, field, oldValue, newValue). -/
structure Modification where
  source : String
  field : String
  oldValue : PyVal
  newValue : PyVal
deriving DecidableEq

/-- The File entity of database.py: a hash, a metadata mapping (a Python dict, modelled
as an insertion-ordered association list) and the buffered pending modifications. -/
structure FileObj where
  hash : List Char
  metadata : List (String × PyVal)
  modifications : List Modification
deriving DecidableEq

/-- The persistent state behind one Database: the field schema, the content-addressed
blob store (hash to bytes), the append-only journal, the journal's checkpoints and the
external search index's metadata snapshots. -/
structure DBState where
  fields : List (String × Bool)
  blobs : List (List Char × List Nat)
  journal : List Transaction
  checkpoints : List (Nat × List Transaction)
  index : List (List Char × List (String × PyVal))
deriving DecidableEq

/-- The observable side effects of Database.add_file, in program order. -/
inductive Event where
  | mkdirs (h : List Char)
  | journalAppend (t : Transaction)
  | searchAdd (h : List Char)
  | blobWrite (h : List Char) (content : List Nat) (move : Bool)
  | chmod (h : List Char)
deriving DecidableEq

/-- Lookup in a Python dict modelled as an insertion-ordered association list. -/
def dget {α β : Type} [DecidableEq α] : List (α × β) → α → Option β
  | [], _ => none
  | (k, v) :: rest, key => if key = k then some v else dget rest key

/-- Assignment d[k] = v on a Python dict: overwrite in place if the key exists,
otherwise append at the end (insertion order). -/
def dset {α β : Type} [DecidableEq α] : List (α × β) → α → β → List (α × β)
  | [], k, v => [(k, v)]
  | (k0, v0) :: rest, k, v => if k = k0 then (k, v) :: rest else (k0, v0) :: dset rest k v

/-- Removal of a key from a Python dict (pop with a default: absent keys are fine). -/
def ddel {α β : Type} [DecidableEq α] : List (α × β) → α → List (α × β)
  | [], _ => []
  | (k0, v0) :: rest, k => if k = k0 then rest else (k0, v0) :: ddel rest k

/-- The character set of Python's string.hexdigits. -/
def HEXDIGITS : List Char := "0123456789abcdefABCDEF".data

/-- The sixteen lowercase hex digits (the alphabet of stored hashes). -/
def LHEX : List Char := "0123456789abcdef".data

/-- Embeds database._validate_hash: raise ValueError when any character lies outside
string.hexdigits, otherwise lowercase. -/
def validate_hash (h : List Char) : Except QErr (List Char) :=
  if h.all (fun c => decide (c ∈ HEXDIGITS)) then .ok (h.map Char.toLower)
  else .error .valueError

/-- Boolean test that p is an initial segment of h. -/
def startsWithL : List Char → List Char → Bool
  | [], _ => true
  | _ :: _, [] => false
  | c :: p, d :: h => c == d && startsWithL p h

/-- The hashes currently present in the blob store, in storage enumeration order. -/
def storedHashes (st : DBState) : List (List Char) := st.blobs.map Prod.fst

/-- Embeds Database.find_hashes: validate and lowercase the argument, then yield the stored
hashes beginning with it. The glob over files/(p ++ star)[0:2]/(p ++ star) matches exactly
the stored hashes having p as an initial segment, because the blob for hash h always lives
at files/h[0:2]/h. -/
def find_hashes (st : DBState) (pre : List Char) : Except QErr (List (List Char)) :=
  match validate_hash pre with
  | .error e => .error e
  | .ok p => .ok ((storedHashes st).filter (fun h => startsWithL p h))

/-- Embeds the while-True loop of Database.get_shortest_hash: take the first two results of
find_hashes on the current even-length cut of the hash; if there is no second result, stop,
otherwise lengthen the cut by 2. The fuel argument totalizes the loop; the wrapper below
passes enough fuel that the loop has always broken before fuel runs out whenever the store
holds distinct hashes of one common even length. -/
def gshLoop (st : DBState) (h : List Char) : Nat → Nat → Except QErr (List Char)
  | 0, baselen => .ok (h.take baselen)
  | fuel + 1, baselen =>
    match find_hashes st (h.take baselen) with
    | .error e => .error e
    | .ok ms =>
      if ms.length ≤ 1 then .ok (h.take baselen)
      else gshLoop st h fuel (baselen + 2)

/-- Embeds Database.get_shortest_hash: the loop starts at length 2. -/
def get_shortest_hash (st : DBState) (h : List Char) : Except QErr (List Char) :=
  gshLoop st h (h.length + 1) 2

/-- Modelled from the spec: the search module is not under src; section 6 gives the
SearchIndex contract get(hash) returning the stored metadata mapping, possibly empty. -/
def searchGet (st : DBState) (h : List Char) : List (String × PyVal) :=
  (dget st.index h).getD []

/-- Embeds File.__init__ : keep the hash and the metadata snapshot, setdefault the key
"hash" to the hash string, and start with no pending modifications. -/
def mkFile (h : List Char) (md : List (String × PyVal)) : FileObj :=
  { hash := h
    metadata := if (dget md "hash").isSome then md else md ++ [("hash", PyVal.str (String.mk h))]
    modifications := [] }

/-- Embeds Database.get: take the first two results of find_hashes; none means
FileDoesNotExist, a second one means AmbiguousHash, otherwise build the File from the
search index's metadata snapshot. -/
def get (st : DBState) (short_hash : List Char) : Except QErr FileObj :=
  match find_hashes st short_hash with
  | .error e => .error e
  | .ok [] => .error (.fileDoesNotExist short_hash)
  | .ok [h] => .ok (mkFile h (searchGet st h))
  | .ok (_ :: _ :: _) => .error (.ambiguousHash short_hash)

/-- Embeds File.set_metadata: unknown fields and read-only fields already present on the
file are rejected; otherwise the change is buffered in modifications (recording the prior
value, None when absent) and the mapping is updated, None deleting the key. -/
def set_metadata (fields : List (String × Bool)) (f : FileObj) (field : String)
    (value : PyVal) (source : String) : Except QErr FileObj :=
  match dget fields field with
  | none => .error (.fieldDoesNotExist (.str field))
  | some readOnly =>
    if (dget f.metadata field).isSome && readOnly then .error (.fieldReadOnly field)
    else
      let oldValue := (dget f.metadata field).getD PyVal.pyNone
      let f1 : FileObj :=
        { f with modifications := f.modifications ++ [⟨source, field, oldValue, value⟩] }
      match value with
      | .pyNone => .ok { f1 with metadata := ddel f1.metadata field }
      | v => .ok { f1 with metadata := dset f1.metadata field v }

/-- Embeds Database.save: one timestamp t is taken for the whole call, each buffered
modification becomes a journal set transaction carrying that timestamp (in buffer order),
the search index receives the file's current metadata, and the buffer is cleared. -/
def save (st : DBState) (f : FileObj) (t : Nat) : DBState × FileObj :=
  let txns := f.modifications.map
    (fun m => Transaction.mk m.source f.hash "set" [PyVal.str m.field, m.oldValue, m.newValue] t)
  let st1 := { st with journal := st.journal ++ txns }
  let st2 := { st1 with index := dset st1.index f.hash f.metadata }
  (st2, { f with modifications := [] })

/-- Embeds Database.add_file: digest the content, make the shard directory, fail with
FileExists when the blob path is already occupied, then journal the add, notify the search
index, materialize the blob (rename when move is requested, else copy) and mark it
read-only. The emitted event list records the side effects in program order. -/
def add_file (sha512hex : List Nat → List Char) (st : DBState) (content : List Nat)
    (move : Bool) (source : String) (now : Nat) :
    DBState × List Event × Except QErr FileObj :=
  let h := sha512hex content
  let ev0 : List Event := [.mkdirs h]
  if (dget st.blobs h).isSome then (st, ev0, .error (.fileExists h))
  else
    let txn : Transaction := ⟨source, h, "add", [], now⟩
    let st1 := { st with journal := st.journal ++ [txn] }
    let st2 := { st1 with index := dset st1.index h [] }
    let st3 := { st2 with blobs := st2.blobs ++ [(h, content)] }
    (st3, ev0 ++ [.journalAppend txn, .searchAdd h, .blobWrite h content move, .chmod h],
     .ok (mkFile h []))

/-- Embeds Database.delete: journal the delete, unlink the blob (os.unlink raises a
FileNotFoundError, an OSError, when the path is absent), remove the index entry, then
evaluate self.rmdir inside try/except OSError. The Database class has no rmdir attribute,
so the attribute lookup raises AttributeError, which except OSError does not catch. -/
def delete (st : DBState) (h : List Char) (source : String) (now : Nat) :
    DBState × Except QErr Unit :=
  let st1 := { st with journal := st.journal ++ [⟨source, h, "delete", [], now⟩] }
  match dget st1.blobs h with
  | none => (st1, .error .osError)
  | some _ =>
    let st2 := { st1 with blobs := ddel st1.blobs h }
    let st3 := { st2 with index := ddel st2.index h }
    (st3, .error (.attributeError "rmdir"))

/-- Modelled from the spec: the journal module is not under src; section 4.4 specifies
getTransactions(hash, opFilter) as this file's transactions matching opFilter, in append
order (oldest first). -/
def get_transactions (st : DBState) (h : List Char) (opFilter : String) : List Transaction :=
  st.journal.filter (fun t => decide (t.file = h ∧ t.op = opFilter))

/-- Modelled from the spec: the journal module is not under src; section 4.4 specifies
getCheckpoint(id) returning the checkpoint's transactions, or none when unknown. -/
def get_checkpoint (st : DBState) (cid : Nat) : Option (List Transaction) :=
  dget st.checkpoints cid

/-- Embeds the tuple unpacking field, value = transaction.extra of restore_metadata:
a Python tuple unpacks into two names exactly when it has two elements, otherwise a
ValueError is raised. -/
def unpack2 : List PyVal → Except QErr (PyVal × PyVal)
  | [a, b] => .ok (a, b)
  | _ => .error .valueError

/-- Embeds the first loop of Database.restore_metadata: walk the set transactions in order,
skip auto-sourced ones when only_auto is set, unpack each extra into (field, value) and
keep the latest triple (source, field, value) per field in a dict. -/
def buildMods (only_auto : Bool) :
    List Transaction → List (PyVal × (String × PyVal × PyVal)) →
    Except QErr (List (PyVal × (String × PyVal × PyVal)))
  | [], d => .ok d
  | t :: ts, d =>
    if only_auto && t.source == "auto" then buildMods only_auto ts d
    else
      match unpack2 t.extra with
      | .error e => .error e
      | .ok (fieldV, valueV) =>
        buildMods only_auto ts (dset d fieldV (t.source, fieldV, valueV))

/-- Embeds the second loop of Database.restore_metadata, which iterates
modifications.items(): each item produced by dict.items() is a (key, value) pair, and
unpacking a pair into the three names source, field, value raises ValueError, so the loop
fails on its first item whenever the dict is nonempty. -/
def restoreApply (f : FileObj) :
    List (PyVal × (String × PyVal × PyVal)) → Except QErr FileObj
  | [] => .ok f
  | _ :: _ => .error .valueError

/-- Embeds Database.restore_metadata (default only_auto is true in the source). -/
def restore_metadata (st : DBState) (f : FileObj) (only_auto : Bool) : Except QErr FileObj :=
  match buildMods only_auto (get_transactions st f.hash "set") [] with
  | .error e => .error e
  | .ok mods => restoreApply f mods

/-- Lexicographic comparison of two char lists by code point, as Python compares strings. -/
def strLeChars : List Char → List Char → Bool
  | [], _ => true
  | _ :: _, [] => false
  | c :: cs, d :: ds => if c = d then strLeChars cs ds else decide (c < d)

/-- The sort key of Database.undo is the Python tuple (transaction file, transaction op),
compared lexicographically. -/
def keyLe (a b : Transaction) : Bool :=
  if a.file = b.file then strLeChars a.op.data b.op.data else strLeChars a.file b.file

/-- Stable insertion: the new element goes after every already placed element whose key is
less than or equal to its own, so elements with equal keys keep their original order. -/
def sortedInsert {α : Type} (le : α → α → Bool) (a : α) : List α → List α
  | [] => [a]
  | b :: bs => if le b a then b :: sortedInsert le a bs else a :: b :: bs

/-- Stable sort modelling Python's sorted(): Python's sort is stable, and a stable sort's
output is uniquely determined by the key relation, so any stable algorithm embeds it. -/
def stableSort {α : Type} (le : α → α → Bool) (l : List α) : List α :=
  l.foldl (fun acc a => sortedInsert le a acc) []

/-- Embeds itertools.groupby over the sorted transactions, keyed by file hash: maximal runs
of consecutive transactions sharing a file become one group. -/
def groupConsec : List Transaction → List (List Char × List Transaction)
  | [] => []
  | t :: ts =>
    match groupConsec ts with
    | [] => [(t.file, [t])]
    | (k, g) :: rest =>
      if t.file = k then (t.file, t :: g) :: rest
      else (t.file, [t]) :: (k, g) :: rest

/-- Embeds the per-file inner loop of Database.undo, including the for/else: an add deletes
the file and breaks (skipping the save); a set unpacks extra into (field, old_value, value)
and calls set_metadata with the field and old_value, leaving source at its default "user";
when the loop completes without a break the file is saved, journalling the reverts. -/
def undoTxns (st : DBState) (f : FileObj) (now : Nat) :
    List Transaction → DBState × Except QErr Unit
  | [] => ((save st f now).1, .ok ())
  | t :: ts =>
    if t.op = "add" then delete st f.hash "user" now
    else if t.op = "set" then
      match t.extra with
      | [fieldV, oldV, _newV] =>
        match fieldV with
        | .str field =>
          match set_metadata st.fields f field oldV "user" with
          | .error e => (st, .error e)
          | .ok f1 => undoTxns st f1 now ts
        | .pyNone => (st, .error (.fieldDoesNotExist .pyNone))
      | _ => (st, .error .valueError)
    else undoTxns st f now ts

/-- Embeds the outer loop of Database.undo over the groups produced by groupby: fetch the
File for the group's hash with Database.get, then run the inner loop; any raised error
propagates and stops further processing, keeping the mutations made so far. -/
def processGroups (now : Nat) :
    DBState → List (List Char × List Transaction) → DBState × Except QErr Unit
  | st, [] => (st, .ok ())
  | st, (h, txns) :: rest =>
    match get st h with
    | .error e => (st, .error e)
    | .ok f =>
      match undoTxns st f now txns with
      | (st1, .ok _) => processGroups now st1 rest
      | (st1, .error e) => (st1, .error e)

/-- The validation predicate of Database.undo: an op outside the undoable set. -/
def canNotUndo (t : Transaction) : Bool := decide (t.op ≠ "add" ∧ t.op ≠ "set")

/-- Embeds Database.undo: resolve the checkpoint, validate every transaction's op against
the undoable set before touching anything, then sort the transactions stably by
(file, op), group them by file and process each group. -/
def undo (st : DBState) (cid : Nat) (now : Nat) : DBState × Except QErr Unit :=
  match get_checkpoint st cid with
  | none => (st, .error (.checkpointDoesNotExist cid))
  | some txns =>
    match txns.find? canNotUndo with
    | some t => (st, .error (.undoFailed t))
    | none => processGroups now st (groupConsec (stableSort keyLe txns))

/-
  Concrete scenario data used by witnesses and counterexamples.
-/

/-- A toy digest function for concrete scenarios (the theorems below quantify over the
digest, so any concrete choice exercises them). -/
def shaAB : List Nat → List Char := fun _ => ['a', 'b']

/-- An empty store whose schema has one writable field, title. -/
def st0 : DBState := ⟨[("title", false)], [], [], [], []⟩

/-- The hash of the single stored blob in the small scenarios. -/
def c4h : List Char := ['a', 'b']

/-- A checkpointed set transaction whose source is auto: title went from A to B. -/
def c4txn : Transaction := ⟨"auto", c4h, "set", [.str "title", .str "A", .str "B"], 5⟩

/-- A store holding one blob, whose journal and checkpoint 1 record c4txn, and whose
search index snapshot has title = B. -/
def c4st : DBState :=
  ⟨[("title", false)], [(c4h, [0])], [c4txn], [(1, [c4txn])],
   [(c4h, [("title", PyVal.str "B")])]⟩

/-- A delete transaction grouped under checkpoint 1 of c1st. -/
def c1txn : Transaction := ⟨"user", c4h, "delete", [], 3⟩

/-- A store whose checkpoint 1 contains a delete transaction. -/
def c1st : DBState :=
  ⟨[("title", false)], [(c4h, [0])], [c1txn], [(1, [c1txn])], [(c4h, [])]⟩

/-- A store holding one blob with an empty index entry, for the delete scenario. -/
def c7st : DBState := ⟨[], [(c4h, [0])], [], [], [(c4h, [])]⟩

/-- Runs the C3 scenario end to end through the embedded operations: add a file, set
title to A as user, save, set title to B as auto, save, then restore_metadata with the
given only_auto flag. -/
def c3run (only_auto : Bool) : Except QErr FileObj :=
  match add_file shaAB st0 [0] false "user" 0 with
  | (st1, _, .ok f) =>
    match set_metadata st1.fields f "title" (.str "A") "user" with
    | .ok f1 =>
      match save st1 f1 1 with
      | (st2, f2) =>
        match set_metadata st2.fields f2 "title" (.str "B") "auto" with
        | .ok f3 =>
          match save st2 f3 2 with
          | (st3, f4) => restore_metadata st3 f4 only_auto
        | .error e => .error e
    | .error e => .error e
  | (_, _, .error e) => .error e

/-
  Theorems.
-/

/-- C1: for every checkpoint that contains at least one delete transaction, undo fails
with UndoFailed and performs no mutation at all: the returned state is the input state,
so blob store, search index and journal are unchanged; the op validation against the
undoable set happens before any mutation. -/
theorem c1_undo_with_delete_fails_without_mutation
    (st : DBState) (cid now : Nat) (txns : List Transaction) (t0 : Transaction)
    (hcp : get_checkpoint st cid = some txns)
    (hmem : t0 ∈ txns) (hdel : t0.op = "delete") :
    ∃ t, t ∈ txns ∧ t.op ≠ "add" ∧ t.op ≠ "set" ∧
      undo st cid now = (st, .error (.undoFailed t)) := by
  rcases hs : txns.find? canNotUndo with _ | t
  · exfalso
    have hnone := List.find?_eq_none.mp hs t0 hmem
    simp [canNotUndo, hdel] at hnone
  · have hp := List.find?_some hs
    simp only [canNotUndo, decide_eq_true_eq] at hp
    exact ⟨t, List.mem_of_find?_eq_some hs, hp.1, hp.2, by simp [undo, hcp, hs]⟩

/-- Witness for C1 at the concrete one-delete checkpoint. -/
theorem c1_witness :
    ∃ t, t ∈ [c1txn] ∧ t.op ≠ "add" ∧ t.op ≠ "set" ∧
      undo c1st 1 7 = (c1st, .error (.undoFailed t)) :=
  c1_undo_with_delete_fails_without_mutation c1st 1 7 [c1txn] c1txn rfl
    (by simp) (by rfl)

/-- C5: adding content whose digest equals the hash of an already stored blob fails with
FileExists and leaves the store exactly as it was: same blobs (hence the existing blob's
bytes), same journal, same index, and the only emitted event is the idempotent shard
mkdirs, so the search index is never notified and nothing is journalled. -/
theorem c5_duplicate_add_fails_store_unchanged
    (sha : List Nat → List Char) (st : DBState) (content bytes : List Nat)
    (mv : Bool) (src : String) (now : Nat)
    (hdup : dget st.blobs (sha content) = some bytes) :
    add_file sha st content mv src now =
      (st, [.mkdirs (sha content)], .error (.fileExists (sha content))) := by
  simp [add_file, hdup]

/-- Witness for C5: re-adding the blob already stored in c7st. -/
theorem c5_witness :
    add_file shaAB c7st [0] false "user" 9 =
      (c7st, [.mkdirs (shaAB [0])], .error (.fileExists (shaAB [0]))) :=
  c5_duplicate_add_fails_store_unchanged shaAB c7st [0] [0] false "user" 9 rfl

/-- C7 (code bug): Database.delete journals the delete and unlinks the blob, but then
evaluates self.rmdir inside try/except OSError; the Database class has no rmdir
attribute, so every delete of a stored file raises AttributeError after mutating,
instead of swallowing the directory-removal failure and succeeding. -/
theorem c7_delete_always_raises_attribute_error :
    delete c7st c4h "user" 4 =
      (⟨[], [], [⟨"user", c4h, "delete", [], 4⟩], [], []⟩,
       .error (.attributeError "rmdir")) := by
  rfl

/-- C3 (code bug): in the scenario set title A as user, save, set title B as auto, save,
restore_metadata raises ValueError for both only_auto settings: the statement
field, value = transaction.extra unpacks the three-element set payload
(field, oldValue, newValue) into two names. The claimed restoration never happens. -/
theorem c3_restore_metadata_raises_value_error :
    c3run true = .error .valueError ∧ c3run false = .error .valueError := by
  exact ⟨rfl, rfl⟩

/-- C10: save clears the pending-modification buffer, so an immediate second save appends
no journal transactions (the journal is unchanged by it); moreover one save call appends
exactly its buffered modifications, all carrying the single timestamp taken at entry. -/
theorem c10_save_clears_buffer_idempotent_single_timestamp
    (st : DBState) (f : FileObj) (t t2 : Nat) :
    ((save st f t).2).modifications = [] ∧
    (save (save st f t).1 (save st f t).2 t2).1.journal = (save st f t).1.journal ∧
    (save st f t).1.journal = st.journal ++ f.modifications.map
      (fun m => Transaction.mk m.source f.hash "set"
        [PyVal.str m.field, m.oldValue, m.newValue] t) ∧
    (∀ tx ∈ ((save st f t).1.journal).drop st.journal.length, tx.time = t) := by
  refine ⟨rfl, by simp [save], by simp [save], ?_⟩
  intro tx htx
  simp only [save, List.drop_left] at htx
  rcases List.mem_map.mp htx with ⟨m, _, rfl⟩
  rfl

/-- C6: Database.get on a valid hex argument fails with FileDoesNotExist when no stored
hash begins with the (lowercased) argument, fails with AmbiguousHash when two or more do,
and returns the File built from the unique match and its index snapshot when exactly one
does. -/
theorem c6_get_resolution_trichotomy (st : DBState) (short_hash : List Char)
    (hvalid : short_hash.all (fun c => decide (c ∈ HEXDIGITS)) = true) :
    ((storedHashes st).filter
        (fun h => startsWithL (short_hash.map Char.toLower) h) = [] →
      get st short_hash = .error (.fileDoesNotExist short_hash)) ∧
    (∀ h, (storedHashes st).filter
        (fun h => startsWithL (short_hash.map Char.toLower) h) = [h] →
      get st short_hash = .ok (mkFile h (searchGet st h))) ∧
    (∀ a b rest, (storedHashes st).filter
        (fun h => startsWithL (short_hash.map Char.toLower) h) = a :: b :: rest →
      get st short_hash = .error (.ambiguousHash short_hash)) := by
  have hfind : find_hashes st short_hash =
      .ok ((storedHashes st).filter
        (fun h => startsWithL (short_hash.map Char.toLower) h)) := by
    simp [find_hashes, validate_hash, hvalid]
  refine ⟨?_, ?_, ?_⟩
  · intro hm; unfold get; rw [hfind, hm]
  · intro h hm; unfold get; rw [hfind, hm]
  · intro a b rest hm; unfold get; rw [hfind, hm]

/-- Witness for C6 in the unique-match case on the one-blob store. -/
theorem c6_witness :
    (∀ h, (storedHashes c7st).filter
        (fun h => startsWithL (['a'].map Char.toLower) h) = [h] →
      get c7st ['a'] = .ok (mkFile h (searchGet c7st h))) ∧
    get c7st ['a'] = .ok (mkFile c4h (searchGet c7st c4h)) := by
  have main := c6_get_resolution_trichotomy c7st ['a'] (by decide)
  exact ⟨main.2.1, main.2.1 c4h (by decide)⟩

/-- C8 counterexample: add succeeds on an empty store but the returned File's metadata
mapping is not empty; File.__init__ setdefaults the key "hash", so the mapping holds one
entry. The claim that the metadata mapping is empty is false at this input. -/
theorem c8_counterexample :
    (add_file shaAB st0 [1, 2] false "user" 0).2.2 = .ok (mkFile ['a', 'b'] []) ∧
    (mkFile ['a', 'b'] []).metadata ≠ [] := by
  exact ⟨rfl, by decide⟩

/-- C8 as amended: a successful add returns a File whose hash is the hex SHA-512 digest of
the content and whose metadata mapping holds exactly the implicit entry mapping the key
"hash" to that digest (and nothing else). -/
theorem c8_add_returns_digest_with_hash_key_only
    (sha : List Nat → List Char) (st : DBState) (content : List Nat)
    (mv : Bool) (src : String) (now : Nat) (f : FileObj)
    (hok : (add_file sha st content mv src now).2.2 = .ok f) :
    f.hash = sha content ∧
    f.metadata = [("hash", PyVal.str (String.mk (sha content)))] := by
  unfold add_file at hok
  by_cases hd : (dget st.blobs (sha content)).isSome
  · simp [hd] at hok
  · simp only [hd, Bool.false_eq_true, if_neg, ite_false, Except.ok.injEq] at hok
    subst hok
    constructor
    · rfl
    · simp [mkFile, dget]

/-- Witness for C8's amended statement at a concrete successful add. -/
theorem c8_witness :
    (mkFile ['a', 'b'] []).hash = shaAB [1, 2] ∧
    (mkFile ['a', 'b'] []).metadata =
      [("hash", PyVal.str (String.mk (shaAB [1, 2])))] :=
  c8_add_returns_digest_with_hash_key_only shaAB st0 [1, 2] false "user" 0
    (mkFile ['a', 'b'] []) rfl

/-- C9: in every execution of add_file, a journal append event can only occur strictly
before a blob write event in the emitted trace: the add journal entry is reported durable
before the blob's bytes are materialized at the content-addressed path. -/
theorem c9_journal_append_precedes_blob_write
    (sha : List Nat → List Char) (st : DBState) (content : List Nat)
    (mv : Bool) (src : String) (now : Nat) (i j : Nat) (t : Transaction)
    (hh : List Char) (bs : List Nat) (mv2 : Bool)
    (hi : (add_file sha st content mv src now).2.1[i]? = some (.journalAppend t))
    (hj : (add_file sha st content mv src now).2.1[j]? = some (.blobWrite hh bs mv2)) :
    i < j := by
  unfold add_file at hi hj
  by_cases hd : (dget st.blobs (sha content)).isSome
  · simp only [hd, if_pos, ite_true] at hi
    rcases i with _ | i
    · simp at hi
    · simp at hi
  · simp only [hd, Bool.false_eq_true, if_neg, ite_false, List.cons_append,
      List.nil_append] at hi hj
    have hi1 : i = 1 := by
      rcases i with _ | _ | _ | _ | _ | i <;> simp at hi
      rfl
    have hj3 : j = 3 := by
      rcases j with _ | _ | _ | _ | _ | j <;> simp at hj
      rfl
    omega

/-- Witness for C9 at a concrete successful add: the journal append sits at index 1 of the
trace and the blob write at index 3. -/
theorem c9_witness :
    (add_file shaAB st0 [1] false "user" 0).2.1[1]? =
      some (.journalAppend ⟨"user", ['a', 'b'], "add", [], 0⟩) ∧
    (add_file shaAB st0 [1] false "user" 0).2.1[3]? =
      some (.blobWrite ['a', 'b'] [1] false) ∧ 1 < 3 :=
  ⟨rfl, rfl,
   c9_journal_append_precedes_blob_write shaAB st0 [1] false "user" 0 1 3
     ⟨"user", ['a', 'b'], "add", [], 0⟩ ['a', 'b'] [1] false rfl rfl⟩

/-- The matches of a cut of h against the stored hashes, as computed by find_hashes after
validation. -/
def cntL (st : DBState) (p : List Char) : List (List Char) :=
  (storedHashes st).filter (fun x => startsWithL p x)

/-- Mapping a function that fixes every element of a list is the identity. -/
theorem map_id_on (f : Char → Char) :
    ∀ l : List Char, (∀ c ∈ l, f c = c) → l.map f = l := by
  intro l
  induction l with
  | nil => intro _; rfl
  | cons c cs ih =>
    intro h
    simp only [List.map_cons]
    rw [h c (by simp), ih (fun x hx => h x (by simp [hx]))]

/-- Lowercasing fixes every lowercase hex digit. -/
theorem toLower_fix_lhex : ∀ c ∈ LHEX, Char.toLower c = c := by decide

/-- Every lowercase hex digit is a Python hexdigit. -/
theorem lhex_sub_hexdigits : ∀ c ∈ LHEX, c ∈ HEXDIGITS := by decide

/-- Validation is the identity on strings of lowercase hex digits. -/
theorem validate_hash_of_lhex (p : List Char) (h : ∀ c ∈ p, c ∈ LHEX) :
    validate_hash p = .ok p := by
  unfold validate_hash
  have hall : p.all (fun c => decide (c ∈ HEXDIGITS)) = true := by
    rw [List.all_eq_true]
    intro c hc
    exact decide_eq_true (lhex_sub_hexdigits c (h c hc))
  rw [if_pos hall, map_id_on _ p (fun c hc => toLower_fix_lhex c (h c hc))]

/-- Every initial cut of a list is one of its initial segments. -/
theorem startsWithL_take (h : List Char) : ∀ n, startsWithL (h.take n) h = true := by
  induction h with
  | nil => intro n; cases n <;> rfl
  | cons c cs ih =>
    intro n
    cases n with
    | zero => rfl
    | succ n => simp [List.take, startsWithL, ih n]

/-- An initial segment at least as long as the whole list is the whole list. -/
theorem startsWithL_len_eq :
    ∀ p q : List Char, startsWithL p q = true → q.length ≤ p.length → p = q := by
  intro p
  induction p with
  | nil =>
    intro q h hl
    cases q with
    | nil => rfl
    | cons d ds => simp at hl
  | cons c cs ih =>
    intro q h hl
    cases q with
    | nil => simp [startsWithL] at h
    | cons d ds =>
      simp only [startsWithL, Bool.and_eq_true, beq_iff_eq] at h
      simp only [List.length_cons, Nat.succ_le_succ_iff] at hl
      rw [h.1, ih ds h.2 hl]

/-- A duplicate-free list whose elements are all equal to x has at most one element. -/
theorem length_le_one_of_nodup_all_eq {l : List (List Char)} (x : List Char)
    (hn : l.Nodup) (hall : ∀ y ∈ l, y = x) : l.length ≤ 1 := by
  cases l with
  | nil => simp
  | cons a rest =>
    cases rest with
    | nil => simp
    | cons b rest2 =>
      exfalso
      have ha := hall a (by simp)
      have hb := hall b (by simp)
      rw [List.nodup_cons] at hn
      exact hn.1 (by rw [ha, hb]; simp)

/-- A list containing h with at most one element is exactly the singleton of h. -/
theorem filter_singleton_of_mem {l : List (List Char)} {h : List Char}
    (hin : h ∈ l) (hle : l.length ≤ 1) : l = [h] := by
  cases l with
  | nil => cases hin
  | cons a rest =>
    cases rest with
    | nil =>
      rcases List.mem_singleton.mp hin with rfl
      rfl
    | cons b rest2 => simp at hle

/-- The specification of the get_shortest_hash loop: starting from an even base length of
at least 2, given enough fuel to reach an even cut M at which at most one stored hash
matches, the loop stops at the first even length B whose cut matches at most once, and
every shorter even length of at least 2 matched two or more stored hashes. -/
theorem gshLoop_spec (st : DBState) (h : List Char) (hhex : ∀ c ∈ h, c ∈ LHEX) :
    ∀ fuel baselen M : Nat, 2 ≤ baselen → baselen % 2 = 0 → M % 2 = 0 →
      baselen ≤ M → M ≤ baselen + 2 * fuel →
      (cntL st (h.take M)).length ≤ 1 →
      (∀ L, 2 ≤ L → L % 2 = 0 → L < baselen → 2 ≤ (cntL st (h.take L)).length) →
      ∃ B, gshLoop st h fuel baselen = .ok (h.take B) ∧ 2 ≤ B ∧ B % 2 = 0 ∧ B ≤ M ∧
        (cntL st (h.take B)).length ≤ 1 ∧
        (∀ L, 2 ≤ L → L % 2 = 0 → L < B → 2 ≤ (cntL st (h.take L)).length) := by
  intro fuel
  induction fuel with
  | zero =>
    intro baselen M h2 hb hM hbM hMf hcnt hmin
    have hMb : M = baselen := by omega
    subst hMb
    exact ⟨M, rfl, h2, hb, le_refl M, hcnt, hmin⟩
  | succ fuel ih =>
    intro baselen M h2 hb hM hbM hMf hcnt hmin
    have hfind : find_hashes st (h.take baselen) = .ok (cntL st (h.take baselen)) := by
      unfold find_hashes
      rw [validate_hash_of_lhex _ (fun c hc => hhex c (List.take_subset _ _ hc))]
      rfl
    have hstep : gshLoop st h (fuel + 1) baselen =
        if (cntL st (h.take baselen)).length ≤ 1 then .ok (h.take baselen)
        else gshLoop st h fuel (baselen + 2) := by
      rw [gshLoop, hfind]
    rw [hstep]
    by_cases hbrk : (cntL st (h.take baselen)).length ≤ 1
    · rw [if_pos hbrk]
      exact ⟨baselen, rfl, h2, hb, hbM, hbrk, hmin⟩
    · rw [if_neg hbrk]
      have hne : baselen ≠ M := by
        intro he
        rw [he] at hbrk
        exact hbrk hcnt
      refine ih (baselen + 2) M (by omega) (by omega) hM (by omega) (by omega) hcnt ?_
      intro L hL2 hLev hLlt
      by_cases hc : L < baselen
      · exact hmin L hL2 hLev hc
      · have : L = baselen := by omega
        subst this
        omega

/-- C2: for a stored hash h (in a store of distinct lowercase-hex hashes of one common
even length, as SHA-512 hex digests are), get_shortest_hash returns the minimal
even-length cut P of h, of length at least 2 and grown in steps of 2, such that
find_hashes on P yields exactly the singleton of h; and Database.get on that cut returns
the File for h (round trip). -/
theorem c2_shortest_hash_minimal_unique_round_trip (st : DBState) (h : List Char)
    (hmem : h ∈ storedHashes st)
    (hnd : (storedHashes st).Nodup)
    (hlen : ∀ x ∈ storedHashes st, x.length = h.length)
    (hhexAll : ∀ x ∈ storedHashes st, ∀ c ∈ x, c ∈ LHEX)
    (heven : h.length % 2 = 0) (hpos : 2 ≤ h.length) :
    ∃ B, get_shortest_hash st h = .ok (h.take B) ∧
      2 ≤ B ∧ B % 2 = 0 ∧ B ≤ h.length ∧
      cntL st (h.take B) = [h] ∧
      (∀ L, 2 ≤ L → L % 2 = 0 → L < B → cntL st (h.take L) ≠ [h]) ∧
      get st (h.take B) = .ok (mkFile h (searchGet st h)) := by
  have hhex : ∀ c ∈ h, c ∈ LHEX := hhexAll h hmem
  have hcntM : (cntL st (h.take h.length)).length ≤ 1 := by
    rw [List.take_length]
    refine length_le_one_of_nodup_all_eq h (hnd.filter _) ?_
    intro y hy
    rcases List.mem_filter.mp hy with ⟨hyl, hys⟩
    exact (startsWithL_len_eq h y hys (le_of_eq (hlen y hyl))).symm
  obtain ⟨B, hrun, hB2, hBev, hBM, hBcnt, hBmin⟩ :=
    gshLoop_spec st h hhex (h.length + 1) 2 h.length (le_refl 2) rfl heven hpos
      (by omega) hcntM (fun L hL2 _ hLlt => absurd hLlt (by omega))
  have hsing : cntL st (h.take B) = [h] :=
    filter_singleton_of_mem (List.mem_filter.mpr ⟨hmem, startsWithL_take h B⟩) hBcnt
  have hfind2 : find_hashes st (h.take B) = .ok [h] := by
    unfold find_hashes
    rw [validate_hash_of_lhex _ (fun c hc => hhex c (List.take_subset _ _ hc))]
    show Except.ok (cntL st (h.take B)) = Except.ok [h]
    rw [hsing]
  refine ⟨B, hrun, hB2, hBev, hBM, hsing, ?_, ?_⟩
  · intro L hL2 hLev hLlt heq
    have := hBmin L hL2 hLev hLlt
    rw [heq] at this
    simp at this
  · unfold get
    rw [hfind2]

/-- The first stored hash of the two-blob C2 scenario. -/
def c2h1 : List Char := ['a', 'b', 'c', 'd']

/-- The second stored hash of the two-blob C2 scenario, sharing a 2-character cut. -/
def c2h2 : List Char := ['a', 'b', 'c', 'e']

/-- A store with two blobs whose hashes agree on their first three characters. -/
def c2st : DBState :=
  ⟨[], [(c2h1, [0]), (c2h2, [1])], [], [], [(c2h1, []), (c2h2, [])]⟩

/-- Witness for C2 on the two-blob store: the hypotheses hold and the shortened hash
exists as described (here the loop must lengthen the cut once, stopping at 4). -/
theorem c2_witness :
    ∃ B, get_shortest_hash c2st c2h1 = .ok (c2h1.take B) ∧
      2 ≤ B ∧ B % 2 = 0 ∧ B ≤ c2h1.length ∧
      cntL c2st (c2h1.take B) = [c2h1] ∧
      (∀ L, 2 ≤ L → L % 2 = 0 → L < B → cntL c2st (c2h1.take L) ≠ [c2h1]) ∧
      get c2st (c2h1.take B) = .ok (mkFile c2h1 (searchGet c2st c2h1)) :=
  c2_shortest_hash_minimal_unique_round_trip c2st c2h1 (by decide) (by decide)
    (by decide) (by decide) (by decide) (by decide)

/-- Inserting an element behind every already placed element it compares against keeps the
accumulator intact and appends at the end. -/
theorem sortedInsert_append {α : Type} (le : α → α → Bool) (a : α) :
    ∀ acc : List α, (∀ b ∈ acc, le b a = true) → sortedInsert le a acc = acc ++ [a] := by
  intro acc
  induction acc with
  | nil => intro _; rfl
  | cons b bs ih =>
    intro hall
    simp only [sortedInsert]
    rw [if_pos (hall b (by simp)), ih (fun x hx => hall x (by simp [hx]))]
    rfl

/-- Folding stable insertion over a list whose elements all compare true pairwise just
appends the list to the accumulator. -/
theorem foldl_sortedInsert_all_le {α : Type} (le : α → α → Bool) :
    ∀ (l acc : List α),
      (∀ a ∈ acc ++ l, ∀ b ∈ acc ++ l, le a b = true) →
      List.foldl (fun acc a => sortedInsert le a acc) acc l = acc ++ l := by
  intro l
  induction l with
  | nil => intro acc _; simp
  | cons a as ih =>
    intro acc hall
    simp only [List.foldl_cons]
    rw [sortedInsert_append le a acc
      (fun b hb => hall b (by simp [hb]) a (by simp))]
    have hsub : ∀ x, x ∈ (acc ++ [a]) ++ as → x ∈ acc ++ a :: as := by
      intro x hx
      simp only [List.mem_append, List.mem_cons, List.mem_singleton] at hx ⊢
      tauto
    rw [ih (acc ++ [a]) (fun x hx y hy => hall x (hsub x hx) y (hsub y hy))]
    simp

/-- A stable sort leaves a list untouched when every pair of its elements compares true:
elements with equal keys keep their original relative order. -/
theorem stableSort_of_all_le {α : Type} (le : α → α → Bool) (l : List α)
    (hall : ∀ a ∈ l, ∀ b ∈ l, le a b = true) : stableSort le l = l := by
  unfold stableSort
  have := foldl_sortedInsert_all_le le l [] (by simpa using hall)
  simpa using this

/-- Grouping a nonempty run of transactions that all carry the same file hash yields the
single group of that hash. -/
theorem groupConsec_const (h : List Char) :
    ∀ l : List Transaction, l ≠ [] → (∀ t ∈ l, t.file = h) →
      groupConsec l = [(h, l)] := by
  intro l
  induction l with
  | nil => intro hne _; exact absurd rfl hne
  | cons t ts ih =>
    intro _ hall
    cases ts with
    | nil => simp [groupConsec, hall t (by simp)]
    | cons t2 ts2 =>
      have hg := ih (by simp) (fun x hx => hall x (by simp [hx]))
      rw [groupConsec, hg]
      simp [hall t (by simp)]

/-- A successful set_metadata on a writable existing field: the buffered modification
records the given source, field, the prior value (None when absent) and the new value,
and the hash is untouched. -/
theorem set_metadata_ok (fields : List (String × Bool)) (f : FileObj) (field : String)
    (value : PyVal) (source : String) (hf : dget fields field = some false) :
    ∃ md, set_metadata fields f field value source =
      .ok ⟨f.hash, md, f.modifications ++
        [⟨source, field, (dget f.metadata field).getD PyVal.pyNone, value⟩]⟩ := by
  have hred : set_metadata fields f field value source =
      (if ((dget f.metadata field).isSome && false) = true
       then Except.error (QErr.fieldReadOnly field)
       else
        let oldValue := (dget f.metadata field).getD PyVal.pyNone
        let f1 : FileObj :=
          { f with modifications := f.modifications ++ [⟨source, field, oldValue, value⟩] }
        match value with
        | .pyNone => .ok { f1 with metadata := ddel f1.metadata field }
        | v => .ok { f1 with metadata := dset f1.metadata field v }) := by
    unfold set_metadata
    rw [hf]
  rw [hred, if_neg (by simp)]
  cases value with
  | str s => exact ⟨_, rfl⟩
  | pyNone => exact ⟨_, rfl⟩

/-- Whatever Database.get returns successfully is a freshly constructed File, so in
particular its pending-modification buffer is empty. -/
theorem get_ok_shape (st : DBState) (s : List Char) (f : FileObj)
    (hget : get st s = .ok f) : ∃ hh, f = mkFile hh (searchGet st hh) := by
  unfold get at hget
  rcases hfh : find_hashes st s with e | ms
  · rw [hfh] at hget; cases hget
  · rw [hfh] at hget
    cases ms with
    | nil => simp at hget
    | cons a rest =>
      cases rest with
      | nil =>
        simp only [Except.ok.injEq] at hget
        exact ⟨a, hget.symm⟩
      | cons b r2 => simp at hget

/-- The inner undo loop on a run of set transactions with writable string fields:
it never breaks, finishes by saving, and the modifications it buffered use the default
source user, keep the original order, and push each transaction's recorded oldValue as
the new value of its field. -/
theorem undoTxns_sets (st : DBState) (now : Nat) :
    ∀ (txns : List Transaction) (f : FileObj),
      (∀ t ∈ txns, t.op = "set") →
      (∀ t ∈ txns, ∃ fld oldV newV, t.extra = [PyVal.str fld, oldV, newV] ∧
        dget st.fields fld = some false) →
      ∃ f1 : FileObj,
        undoTxns st f now txns = ((save st f1 now).1, .ok ()) ∧
        f1.hash = f.hash ∧
        ∃ mods : List Modification,
          f1.modifications = f.modifications ++ mods ∧
          mods.length = txns.length ∧
          (∀ i (hi : i < mods.length) (hj : i < txns.length),
            mods[i].source = "user" ∧
            ∃ oldV newV, txns[i].extra = [PyVal.str (mods[i].field), oldV, newV] ∧
              mods[i].newValue = oldV) := by
  intro txns
  induction txns with
  | nil =>
    intro f _ _
    exact ⟨f, rfl, rfl, [], by simp, rfl,
      fun i hi hj => absurd hi (Nat.not_lt_zero i)⟩
  | cons t ts ih =>
    intro f hops hex
    have hop := hops t (by simp)
    obtain ⟨fld, oldV, newV, hextra, hfld⟩ := hex t (by simp)
    obtain ⟨tsrc, tfile, topv, textra, ttime⟩ := t
    simp only at hop hextra
    subst hop
    subst hextra
    obtain ⟨md, hsm⟩ := set_metadata_ok st.fields f fld oldV "user" hfld
    have h1 : undoTxns st f now
        (Transaction.mk tsrc tfile "set" [PyVal.str fld, oldV, newV] ttime :: ts) =
        match set_metadata st.fields f fld oldV "user" with
        | .error e => (st, .error e)
        | .ok f1 => undoTxns st f1 now ts := by
      rw [undoTxns]
      rfl
    obtain ⟨f1, hrun, hhash, mods, hmods, hmlen, hidx⟩ :=
      ih ⟨f.hash, md, f.modifications ++
          [⟨"user", fld, (dget f.metadata fld).getD PyVal.pyNone, oldV⟩]⟩
        (fun x hx => hops x (by simp [hx]))
        (fun x hx => hex x (by simp [hx]))
    refine ⟨f1, ?_, hhash, ⟨"user", fld, (dget f.metadata fld).getD PyVal.pyNone, oldV⟩ :: mods,
      ?_, by simp [hmlen], ?_⟩
    · rw [h1, hsm]
      exact hrun
    · rw [hmods]
      simp
    · intro i hi hj
      cases i with
      | zero => exact ⟨rfl, oldV, newV, rfl, rfl⟩
      | succ i =>
        have hi2 : i < mods.length := by simpa using hi
        have hj2 : i < ts.length := by simpa using hj
        simpa using hidx i hi2 hj2

/-- C4 counterexample: undoing checkpoint 1 of c4st, whose single set transaction has
source auto, journals a reverting set transaction whose source is the default user, not
the original transaction's source. The claim that undo reverts with the original source
is false at this input. -/
theorem c4_counterexample :
    (undo c4st 1 99).1.journal =
      [c4txn, ⟨"user", c4h, "set", [.str "title", .str "B", .str "A"], 99⟩] ∧
    c4txn.source = "auto" ∧
    (Transaction.mk "user" c4h "set" [.str "title", .str "B", .str "A"] 99).source ≠ "auto" := by
  refine ⟨?_, rfl, by decide⟩
  rfl

/-- C4 as amended: during undo of a checkpoint of set transactions on one file, every set
is reverted by calling set_metadata with the transaction's field and recorded oldValue and
the default source user (not the original transaction's source); the reverts preserve the
original append order (the sort is stable and set entries for one file compare equal), as
witnessed by the journal entries the closing save appends. -/
theorem c4_undo_set_reverts_in_order_default_user_source
    (st : DBState) (cid now : Nat) (txns : List Transaction) (h : List Char) (f0 : FileObj)
    (hcp : get_checkpoint st cid = some txns)
    (hne : txns ≠ [])
    (hops : ∀ t ∈ txns, t.op = "set")
    (hfile : ∀ t ∈ txns, t.file = h)
    (hget : get st h = .ok f0)
    (hex : ∀ t ∈ txns, ∃ fld oldV newV, t.extra = [PyVal.str fld, oldV, newV] ∧
      dget st.fields fld = some false) :
    ∃ st1 jnew, undo st cid now = (st1, .ok ()) ∧
      st1.journal = st.journal ++ jnew ∧
      jnew.length = txns.length ∧
      (∀ i (hi : i < jnew.length) (hj : i < txns.length),
        jnew[i].source = "user" ∧ jnew[i].op = "set" ∧ jnew[i].file = f0.hash ∧
        jnew[i].time = now ∧
        ∃ fld oldV newV prior, txns[i].extra = [PyVal.str fld, oldV, newV] ∧
          jnew[i].extra = [PyVal.str fld, prior, oldV]) := by
  have hfindnone : txns.find? canNotUndo = none :=
    List.find?_eq_none.mpr (fun t ht => by simp [canNotUndo, hops t ht])
  have hsort : stableSort keyLe txns = txns := by
    refine stableSort_of_all_le keyLe txns ?_
    intro a ha b hb
    rw [keyLe, if_pos (by rw [hfile a ha, hfile b hb]), hops a ha, hops b hb]
    decide
  have hgroup : groupConsec txns = [(h, txns)] := groupConsec_const h txns hne hfile
  obtain ⟨f1, hrun, hhash1, mods, hmods, hmlen, hidx⟩ :=
    undoTxns_sets st now txns f0 hops hex
  obtain ⟨hh, hf0⟩ := get_ok_shape st h f0 hget
  have hf0mods : f0.modifications = [] := by rw [hf0]; rfl
  have hmods2 : f1.modifications = mods := by rw [hmods, hf0mods]; rfl
  have h1 : undo st cid now =
      (match txns.find? canNotUndo with
       | some t => (st, Except.error (QErr.undoFailed t))
       | none => processGroups now st (groupConsec (stableSort keyLe txns))) := by
    unfold undo
    rw [hcp]
  have h2 : undo st cid now = processGroups now st [(h, txns)] := by
    rw [h1, hfindnone, hsort, hgroup]
  have h3 : processGroups now st [(h, txns)] =
      (match undoTxns st f0 now txns with
       | (st1, .ok _) => processGroups now st1 []
       | (st1, .error e) => (st1, .error e)) := by
    have hunf : processGroups now st [(h, txns)] =
        (match get st h with
         | .error e => (st, .error e)
         | .ok f =>
           match undoTxns st f now txns with
           | (st1, .ok _) => processGroups now st1 []
           | (st1, .error e) => (st1, .error e)) := rfl
    rw [hunf, hget]
  have h4 : undo st cid now = ((save st f1 now).1, .ok ()) := by
    rw [h2, h3, hrun]
    rfl
  refine ⟨(save st f1 now).1,
    mods.map (fun m => Transaction.mk m.source f0.hash "set"
      [PyVal.str m.field, m.oldValue, m.newValue] now),
    h4, ?_, by simp [hmlen], ?_⟩
  · show (save st f1 now).1.journal = _
    simp only [save]
    rw [hmods2, hhash1]
  · intro i hi hj
    have hilen : i < mods.length := by
      rw [hmlen]
      exact hj
    have hmap : (mods.map (fun m => Transaction.mk m.source f0.hash "set"
        [PyVal.str m.field, m.oldValue, m.newValue] now))[i] =
        Transaction.mk (mods[i]).source f0.hash "set"
          [PyVal.str (mods[i]).field, (mods[i]).oldValue, (mods[i]).newValue] now := by
      simp
    obtain ⟨hsrc, oldV, newV, hextra, hnewv⟩ := hidx i hilen hj
    rw [hmap]
    refine ⟨hsrc, rfl, rfl, rfl, (mods[i]).field, oldV, newV, (mods[i]).oldValue,
      hextra, ?_⟩
    rw [hnewv]

/-- Witness for C4's amended statement at the single-set checkpoint of c4st. -/
theorem c4_witness :
    ∃ st1 jnew, undo c4st 1 99 = (st1, .ok ()) ∧
      st1.journal = c4st.journal ++ jnew ∧
      jnew.length = [c4txn].length ∧
      (∀ i (hi : i < jnew.length) (hj : i < [c4txn].length),
        jnew[i].source = "user" ∧ jnew[i].op = "set" ∧
        jnew[i].file = (mkFile c4h (searchGet c4st c4h)).hash ∧
        jnew[i].time = 99 ∧
        ∃ fld oldV newV prior, [c4txn][i].extra = [PyVal.str fld, oldV, newV] ∧
          jnew[i].extra = [PyVal.str fld, prior, oldV]) :=
  c4_undo_set_reverts_in_order_default_user_source c4st 1 99 [c4txn] c4h
    (mkFile c4h (searchGet c4st c4h)) rfl (by simp)
    (fun t ht => by rcases List.mem_singleton.mp ht with rfl; rfl)
    (fun t ht => by rcases List.mem_singleton.mp ht with rfl; rfl)
    rfl
    (fun t ht => by
      rcases List.mem_singleton.mp ht with rfl
      exact ⟨"title", .str "A", .str "B", rfl, rfl⟩)

end Qualia
